import Mathlib

/-!
Verification of the lo-fi synchronization core: a shallow embedding of the
operation model (`packages/common/src/operation.ts`) and the metadata façade
(`packages/web/src/index.ts`), with theorems settling the specification's
claims about patch application, diffing, rebase and schema updates.

Values are JavaScript values as the source manipulates them: scalars,
`undefined`, `null`, object references, and objects/arrays.  The hidden OID
key the source stores on objects and arrays is modelled as an out-of-band
`Option String` component of the `obj`/`arr` constructors.  Object identity
(JavaScript `===` on non-primitives) is modelled by an explicit identity
token on `ref` values; two distinct object literals never compare equal
under strict equality, which the embedding reflects by returning `false`
for all non-`ref` composite comparisons.
-/

namespace LoFi

/-- A JavaScript property name as used by patches: a string or a number. -/
inductive PName where
  | str (s : String)
  | num (n : Int)
deriving DecidableEq, Repr

mutual
/-- A JavaScript value as the source sees it.  `ref` carries an identity
token (JavaScript object identity) and the referenced OID.  `obj` and `arr`
carry the hidden OID key as an out-of-band `Option String`. -/
inductive Val where
  | str (s : String)
  | num (n : Int)
  | bool (b : Bool)
  | null
  | undef
  | ref (ident : Nat) (id : String)
  | obj (oid : Option String) (fields : Fields)
  | arr (oid : Option String) (items : Items)
deriving DecidableEq, Repr

/-- The ordered fields of a JavaScript object (insertion order, unique keys). -/
inductive Fields where
  | nil
  | cons (key : String) (value : Val) (rest : Fields)
deriving DecidableEq, Repr

/-- The elements of a JavaScript array. -/
inductive Items where
  | nil
  | cons (value : Val) (rest : Items)
deriving DecidableEq, Repr
end

namespace Items

/-- View an `Items` sequence as a `List`. -/
def toList : Items → List Val
  | .nil => []
  | .cons v rest => v :: toList rest

/-- Build an `Items` sequence from a `List`. -/
def ofList : List Val → Items
  | [] => .nil
  | v :: rest => .cons v (ofList rest)

theorem toList_ofList (l : List Val) : (ofList l).toList = l := by
  induction l with
  | nil => rfl
  | cons v rest ih => simp [ofList, toList, ih]

theorem ofList_toList : ∀ (l : Items), ofList l.toList = l
  | .nil => rfl
  | .cons v rest => by simp [ofList, toList, ofList_toList rest]

end Items

namespace Fields

/-- `fields[key]`: the first (unique) binding of `key`, if any. -/
def lookup : Fields → String → Option Val
  | .nil, _ => none
  | .cons k v rest, key => if k = key then some v else lookup rest key

/-- JavaScript property assignment `fields[key] = v`: update an existing
binding in place (keeping insertion order) or append a new one. -/
def setKey : Fields → String → Val → Fields
  | .nil, key, v => .cons key v .nil
  | .cons k w rest, key, v =>
    if k = key then .cons k v rest else .cons k w (setKey rest key v)

/-- JavaScript `delete fields[key]`. -/
def removeKey : Fields → String → Fields
  | .nil, _ => .nil
  | .cons k w rest, key =>
    if k = key then removeKey rest key else .cons k w (removeKey rest key)

/-- The keys of an object in insertion order. -/
def keys : Fields → List String
  | .nil => []
  | .cons k _ rest => k :: keys rest

end Fields

/-- `isObjectRef` from `operation.ts`: a value tagged `@@type: ref`. -/
def isObjectRef : Val → Bool
  | .ref _ _ => true
  | _ => false

/-- JavaScript truthiness of a value. -/
def jsTruthy : Val → Bool
  | .str s => !(s == "")
  | .num n => !(n == 0)
  | .bool b => b
  | .null => false
  | .undef => false
  | .ref _ _ => true
  | .obj _ _ => true
  | .arr _ _ => true

/-- JavaScript strict equality `===`.  Scalars compare by value; `ref`
values (objects) compare by identity token; any other composite comparison
is between two distinct heap objects and yields `false`. -/
def jsStrictEq : Val → Val → Bool
  | .str s, .str t => s == t
  | .num n, .num m => n == m
  | .bool a, .bool b => a == b
  | .null, .null => true
  | .undef, .undef => true
  | .ref i _, .ref j _ => i == j
  | _, _ => false

/-- `maybeGetOid` (oids.ts, not in src/): read the hidden OID key of an
object or array, `undefined` otherwise.  Modelled from the spec: the OID is
a hidden identity stamped on each object/array (spec section 4.1). -/
def maybeGetOid : Val → Option String
  | .obj oid _ => oid
  | .arr oid _ => oid
  | _ => none

/-- `assignOid` (oids.ts, not in src/).  Modelled from the spec: stamps a
value with a hidden identity (spec section 4.1); a no-op on scalars. -/
def assignOid : Val → String → Val
  | .obj _ f, oid => .obj (some oid) f
  | .arr _ l, oid => .arr (some oid) l
  | v, _ => v

/-- `createRef` (oids.ts, not in src/).  Modelled from the spec: builds the
tagged value standing in for a nested object (spec section 3).  The identity
token is `0`: each call allocates a fresh object; the token never takes part
in any claim. -/
def createRef (id : String) : Val :=
  .ref 0 id

/-- `cloneDeep` (utils.ts, not in src/): a deep structural copy.  In a pure
tree model the copy is the value itself. -/
def cloneDeep (v : Val) : Val := v

/-- `isObject` (utils.ts, not in src/): a non-null value of object type.
Modelled from the spec for the diff inputs, which are raw value trees where
object references do not occur. -/
def isObject : Val → Bool
  | .obj _ _ => true
  | .arr _ _ => true
  | _ => false

/-! ## Patches (`OperationPatch` in `operation.ts`) -/

/-- The `only` selector of a `list-remove` patch. -/
inductive RemoveOnly where
  | first
  | last
deriving DecidableEq, Repr

/-- The tagged union of patch variants from `operation.ts`.  `init` is the
source's `initialize` variant.  In `listInsert`, an absent `value` field is
`Val.undef` and an absent `values` field is `none`. -/
inductive OperationPatch where
  | init (value : Val)
  | set (name : PName) (value : Val)
  | remove (name : PName)
  | listPush (value : Val)
  | listInsert (index : Int) (value : Val) (values : Option (List Val))
  | listDelete (index : Int) (count : Int)
  | listMoveByRef (value : Val) (index : Int)
  | listMoveByIndex (fromIdx : Int) (toIdx : Int)
  | listRemove (value : Val) (only : Option RemoveOnly)
  | listAdd (value : Val)
  | delete
deriving DecidableEq, Repr

/-- An `Operation` record: target OID, HLC timestamp, patch. -/
structure Operation where
  oid : String
  timestamp : String
  data : OperationPatch
deriving DecidableEq, Repr

/-! ## JavaScript array and property primitives used by `applyPatch` -/

/-- `Array.prototype.splice(start, deleteCount, ...items)`: returns the
removed elements and the resulting array, with JavaScript's clamping of a
negative or oversized `start` and `deleteCount`. -/
def jsSplice (l : List Val) (start delCount : Int) (items : List Val) :
    List Val × List Val :=
  let len : Int := l.length
  let s : Nat := (if start < 0 then max (len + start) 0 else min start len).toNat
  let d : Nat := (min (max delCount 0) (len - (s : Int))).toNat
  ((l.drop s).take d, l.take s ++ items ++ (l.drop s).drop d)

/-- `Array.prototype.indexOf`: first index strictly equal to `v`, else `-1`. -/
def jsIndexOf (l : List Val) (v : Val) : Int :=
  match l.findIdx? (fun item => jsStrictEq item v) with
  | some i => (i : Int)
  | none => -1

/-- `Array.prototype.lastIndexOf`: last index strictly equal to `v`, else `-1`. -/
def jsLastIndexOf (l : List Val) (v : Val) : Int :=
  match l.reverse.findIdx? (fun item => jsStrictEq item v) with
  | some i => (l.length : Int) - 1 - (i : Int)
  | none => -1

/-- The canonical array index denoted by a property name, if any.  A
non-negative number, or a string that is the canonical decimal spelling of a
non-negative number, addresses an element; anything else addresses an
ordinary property, which the array model does not store. -/
def PName.toIndex : PName → Option Nat
  | .num n => if n < 0 then none else some n.toNat
  | .str s => match s.toNat? with
    | some n => if toString n = s then some n else none
    | none => none

/-- The object key denoted by a property name (numbers stringify). -/
def PName.toKey : PName → String
  | .str s => s
  | .num n => toString n

/-- Element assignment `arr[i] = v`, padding with holes (`undefined`) past
the current length as JavaScript does. -/
def listSetAt (l : List Val) (i : Nat) (v : Val) : List Val :=
  if i < l.length then l.set i v
  else l ++ List.replicate (i - l.length) Val.undef ++ [v]

/-- `base[name] = value` on a base value: updates an object key or an array
slot; silently ignored on primitives, on a negative or non-canonical array
index (a non-element property of the array object), and on refs. -/
def jsSet (b : Val) (name : PName) (v : Val) : Val :=
  match b with
  | .obj oid f => .obj oid (f.setKey name.toKey v)
  | .arr oid l =>
    match name.toIndex with
    | some i => .arr oid (Items.ofList (listSetAt l.toList i v))
    | none => b
  | _ => b

/-- `delete base[name]`: removes an object key; on an array leaves a hole
(which reads as `undefined`) at an existing index; otherwise a no-op. -/
def jsDelete (b : Val) (name : PName) : Val :=
  match b with
  | .obj oid f => .obj oid (f.removeKey name.toKey)
  | .arr oid l =>
    match name.toIndex with
    | some i =>
      if i < l.toList.length then .arr oid (Items.ofList (l.toList.set i Val.undef))
      else b
    | none => b
  | _ => b

/-- `listCheck` from `operation.ts`: `true` on an array; on anything else it
logs a non-fatal error and returns `false` (the caller skips the patch). -/
def listCheck : Val → Bool
  | .arr _ _ => true
  | _ => false

/-! ## `list-remove` machinery -/

/-- The predicate `(item) => item.id === value.id` from the `list-remove`
case: reading `id` from `null` or `undefined` throws a `TypeError`; a ref
exposes its OID; a plain object exposes its `id` property; other values
expose `undefined`, which never equals the string `targetId`. -/
def refIdMatch (targetId : String) : Val → Except String Bool
  | .null => .error "TypeError: cannot read id of null"
  | .undef => .error "TypeError: cannot read id of undefined"
  | .ref _ i => .ok (i == targetId)
  | .obj _ f =>
    .ok (match f.lookup "id" with
      | some (.str s) => s == targetId
      | _ => false)
  | _ => .ok false

/-- The element matcher of `list-remove`: a ref value compares by `id`
(possibly throwing on nullish elements), any other value by strict
equality. -/
def itemMatcher (v : Val) : Val → Except String Bool :=
  match v with
  | .ref _ id => refIdMatch id
  | _ => fun item => .ok (jsStrictEq item v)

/-- `Array.prototype.findIndex` with a predicate that may throw: elements
are examined in order until the first match or the first throw. -/
def findIndexE (p : Val → Except String Bool) : List Val → Except String Int
  | [] => .ok (-1)
  | v :: rest => do
    let b ← p v
    if b then .ok 0
    else do
      let i ← findIndexE p rest
      .ok (if i = -1 then -1 else i + 1)

/-- Reverse-scan worker for `findLastIndexE`: `n` is one past the index of
the current head of the reversed remainder. -/
def findLastIndexEGo (p : Val → Except String Bool) :
    List Val → Nat → Except String Int
  | [], _ => .ok (-1)
  | v :: rest, n => do
    let b ← p v
    if b then .ok ((n : Int) - 1) else findLastIndexEGo p rest (n - 1)

/-- `findLastIndex` (utils.ts, not in src/): scan from the last element
towards the first, returning the first matching index from the end, `-1` if
none.  Modelled from the spec: `only: last` removes the last occurrence. -/
def findLastIndexE (p : Val → Except String Bool) (l : List Val) :
    Except String Int :=
  findLastIndexEGo p l.reverse l.length

/-- One iteration of the `list-remove` loop body: locate the first or last
match per `only`, remove it if found; returns the located index and the
resulting list. -/
def listRemoveOnce (v : Val) (only : Option RemoveOnly) (l : List Val) :
    Except String (Int × List Val) := do
  let idx ← match only with
    | some .last => findLastIndexE (itemMatcher v) l
    | _ => findIndexE (itemMatcher v) l
  if idx = -1 then .ok (idx, l) else .ok (idx, (jsSplice l idx 1 []).2)

/-- The `do … while (!patch.only && index !== -1)` loop of `list-remove`.
`fuel` bounds the number of iterations; every iteration that repeats has
removed one element, so `l.length + 1` iterations always suffice. -/
def listRemoveRun (v : Val) (only : Option RemoveOnly) (l : List Val) :
    Nat → Except String (List Val)
  | 0 => .ok l
  | fuel + 1 => do
    let (idx, l') ← listRemoveOnce v only l
    if only = none ∧ idx ≠ -1 then listRemoveRun v only l' fuel else .ok l'

/-- The `list-add` membership test: refs compare by `id`, anything else by
strict equality (`base.some(...)` never throws). -/
def listAddHas (l : List Val) (v : Val) : Bool :=
  l.any (fun item =>
    match item, v with
    | .ref _ i, .ref _ j => i == j
    | _, _ => jsStrictEq item v)

/-! ## `applyPatch` -/

/-- The body of the `applyPatch` switch for a present base (the guard for an
absent base has already fallen through). -/
def applyPatchSome (b : Val) : OperationPatch → Except String (Option Val)
  | .set name v => .ok (some (jsSet b name v))
  | .remove name => .ok (some (jsDelete b name))
  | .listPush v =>
    .ok (some (match b with
      | .arr oid l => .arr oid (Items.ofList (l.toList ++ [v]))
      | _ => b))
  | .listDelete i c =>
    .ok (some (match b with
      | .arr oid l => .arr oid (Items.ofList (jsSplice l.toList i c []).2)
      | _ => b))
  | .listMoveByIndex f t =>
    .ok (some (match b with
      | .arr oid l =>
        let sp := jsSplice l.toList f 1 []
        let moved := sp.1.headD Val.undef
        .arr oid (Items.ofList (jsSplice sp.2 t 0 [moved]).2)
      | _ => b))
  | .listRemove v only =>
    (match b with
      | .arr oid l => do
        let l' ← listRemoveRun v only l.toList (l.toList.length + 1)
        .ok (some (.arr oid (Items.ofList l')))
      | _ => .ok (some b))
  | .listAdd v =>
    .ok (some (match b with
      | .arr oid l =>
        if listAddHas l.toList v then b
        else .arr oid (Items.ofList (l.toList ++ [v]))
      | _ => b))
  | .listMoveByRef v i =>
    .ok (some (match b with
      | .arr oid l =>
        let idx := jsIndexOf l.toList v
        let sp := jsSplice l.toList idx 1 []
        let moved := sp.1.headD Val.undef
        .arr oid (Items.ofList (jsSplice sp.2 i 0 [moved]).2)
      | _ => b))
  | .listInsert i v vs =>
    (match b with
      | .arr oid l =>
        if !jsTruthy v ∧ vs = none then
          .error "Cannot apply list insert patch; expected value or values"
        else if jsTruthy v then
          .ok (some (.arr oid (Items.ofList (jsSplice l.toList i 0 [v]).2)))
        else
          .ok (some (.arr oid (Items.ofList (jsSplice l.toList i 0 (vs.getD [])).2)))
      | _ => .ok (some b))
  | .delete => .ok none
  | .init v => .ok (some (cloneDeep v))

/-- `applyPatch` from `operation.ts`: a deleted (absent) base — `undefined`
or `null` — is returned unchanged by every patch except `initialize`;
otherwise dispatch on the patch kind.  A thrown JavaScript error is an
`Except.error`. -/
def applyPatch (base : Option Val) (patch : OperationPatch) :
    Except String (Option Val) :=
  match base with
  | none =>
    match patch with
    | .init v => .ok (some (cloneDeep v))
    | _ => .ok none
  | some .null =>
    match patch with
    | .init v => .ok (some (cloneDeep v))
    | _ => .ok (some .null)
  | some b => applyPatchSome b patch

/-- An absent base as `applyPatch`'s guard sees it: `undefined` or `null`
(deleted objects are represented by `undefined`; `null` is guarded the same
way). -/
def isAbsentBase : Option Val → Bool
  | none => true
  | some .null => true
  | _ => false

/-! ## `applyOperations` -/

/-- Loop of `applyOperations` from `operation.ts`, faithful to the source:
each iteration passes the ORIGINAL `base` object into `applyPatch`, not the
folded result.  Because `applyPatch` mutates its argument in place, the
first argument tracks the state of that original object — it is updated by
the in-place patch kinds, while `initialize` (which returns a fresh clone)
and `delete` (which returns `undefined` without mutating) leave it alone —
and the second argument tracks `cur`. -/
def applyOperationsAux (base cur : Option Val) :
    List OperationPatch → Except String (Option Val)
  | [] => .ok cur
  | p :: rest =>
    match applyPatch base p with
    | .error e => .error e
    | .ok r =>
      match p with
      | .init _ => applyOperationsAux base r rest
      | .delete => applyOperationsAux base r rest
      | _ => applyOperationsAux r r rest

/-- `applyOperations` from `operation.ts`. -/
def applyOperations (base : Option Val) (operations : List Operation) :
    Except String (Option Val) :=
  applyOperationsAux base base (operations.map (fun op => op.data))

/-- The behavior the spec requires of `applyOperations` (its stated
"corrected behavior"): a left fold of `applyPatch` through the accumulated
result `cur`. -/
def applyOperationsFold (base : Option Val) (operations : List Operation) :
    Except String (Option Val) :=
  operations.foldlM (fun cur op => applyPatch cur op.data) base

/-! ## Timestamps

HLC timestamps are strings compared with JavaScript's relational operators,
which order strings lexicographically by code unit. -/

/-- Lexicographic comparison of character lists. -/
def jsStrLtChars : List Char → List Char → Bool
  | [], [] => false
  | [], _ :: _ => true
  | _ :: _, [] => false
  | c :: cs, d :: ds =>
    if c < d then true
    else if d < c then false
    else jsStrLtChars cs ds

/-- JavaScript `a < b` on strings. -/
def jsStrLt (a b : String) : Bool :=
  jsStrLtChars a.data b.data

/-- JavaScript `a <= b` on strings. -/
def jsStrLe (a b : String) : Bool :=
  !(jsStrLt b a)

/-! ## The metadata façade: `updateSchema` and `rebase`
(`packages/web/src/index.ts`) -/

/-- A stored schema, abstracted to its integer version and its remaining
serialized content; `JSON.stringify` comparison of two schemas is equality
of the records. -/
structure StorageSchema where
  version : Int
  content : String
deriving DecidableEq, Repr

/-- `Metadata.updateSchema` from `web/src/index.ts`: performs the conflict
check against the stored schema and, unless the check throws, persists the
new schema (which is returned). -/
def updateSchema (stored : Option StorageSchema) (schema : StorageSchema)
    (overrideConflict : Option Int) : Except String StorageSchema :=
  match stored with
  | some storedSchema =>
    if overrideConflict = some storedSchema.version ∧
        storedSchema.version = schema.version ∧ ¬ storedSchema = schema then
      .error "Schema has changed without a version change"
    else .ok schema
  | none => .ok schema

/-- A `DocumentBaseline`: the folded snapshot of one sub-object as of its
timestamp. -/
structure DocumentBaseline where
  oid : String
  snapshot : Option Val
  timestamp : String
deriving DecidableEq, Repr

/-- Modelled from the spec: `OperationsStore.iterateOverAllOperationsForEntity`
(OperationsStore.ts is not under src/) visits one OID's operations in
timestamp order, truncating at `to` inclusively — rebase up to a watermark
folds every operation with `timestamp ≤ T` (spec sections 3 and 4.8).  The
store content for one OID is modelled as its timestamp-ordered operation
list, so the scan is a filter. -/
def scanUpTo (ops : List Operation) (upTo : String) : List Operation :=
  ops.filter (fun op => jsStrLe op.timestamp upTo)

/-- `current = baseline?.snapshot || undefined` from `Metadata.rebase`: a
falsy stored snapshot is replaced by `undefined`. -/
def baselineStart (baseline : Option DocumentBaseline) : Option Val :=
  match baseline with
  | none => none
  | some b =>
    match b.snapshot with
    | none => none
    | some v => if jsTruthy v then some v else none

/-- The condition `!baseline || patch.timestamp > baseline.timestamp` from
`Metadata.rebase`: the visited patch is folded only when no baseline existed
or the patch is strictly newer than the baseline's timestamp (the defensive
re-skip of already folded operations). -/
def eligible (baseline : Option DocumentBaseline) (op : Operation) : Bool :=
  match baseline with
  | none => true
  | some b => jsStrLt b.timestamp op.timestamp

/-- The scan body of `Metadata.rebase`: each visited patch is applied to the
running snapshot only when eligible; the visited row is deleted regardless,
which the caller models by dropping every scanned row. -/
def rebaseFold (baseline : Option DocumentBaseline) (cur : Option Val)
    (ops : List Operation) : Except String (Option Val) :=
  ops.foldlM
    (fun c op => if eligible baseline op then applyPatch c op.data else .ok c)
    cur

/-- `Metadata.rebase` from `web/src/index.ts` for a single OID.  The store
state for that OID is `(baseline, ops)`; the result is the new store state:
the scanned rows are deleted, and the new baseline `{oid, snapshot: current,
timestamp: upTo}` is written when its snapshot is truthy and the stored
baseline is deleted otherwise. -/
def rebase (oid : String) (baseline : Option DocumentBaseline)
    (ops : List Operation) (upTo : String) :
    Except String (Option DocumentBaseline × List Operation) :=
  match rebaseFold baseline (baselineStart baseline) (scanUpTo ops upTo) with
  | .error e => .error e
  | .ok current =>
    let newBaseline : Option DocumentBaseline :=
      match current with
      | some v =>
        if jsTruthy v then some ⟨oid, some (assignOid v oid), upTo⟩ else none
      | none => none
    .ok (newBaseline, ops.filter (fun op => !(jsStrLe op.timestamp upTo)))

/-- Equality of `Except` results is decidable when both components are. -/
instance {ε α : Type} [DecidableEq ε] [DecidableEq α] :
    DecidableEq (Except ε α) := fun x y =>
  match x, y with
  | .ok a, .ok b =>
    if h : a = b then isTrue (by rw [h]) else isFalse (by simp [h])
  | .error e, .error f =>
    if h : e = f then isTrue (by rw [h]) else isFalse (by simp [h])
  | .ok _, .error _ => isFalse (fun h => nomatch h)
  | .error _, .ok _ => isFalse (fun h => nomatch h)

/-! ## Patch classification helpers -/

/-- Is this patch the `initialize` variant? -/
def OperationPatch.isInit : OperationPatch → Bool
  | .init _ => true
  | _ => false

/-- Is this a list-targeted patch (one whose `applyPatch` case guards with
`listCheck`)? -/
def OperationPatch.isListPatch : OperationPatch → Bool
  | .listPush _ => true
  | .listInsert _ _ _ => true
  | .listDelete _ _ => true
  | .listMoveByRef _ _ => true
  | .listMoveByIndex _ _ => true
  | .listRemove _ _ => true
  | .listAdd _ => true
  | _ => false

/-! ## Claims C5, C6, C10 about `applyPatch` -/

/-- Claim C5: `applyPatch` with a `delete` patch returns an absent value
for every base, and for every patch whose kind is not `initialize`,
`applyPatch` applied to an absent base returns the absent base unchanged,
so a deleted sub-object stays deleted until a later `initialize`. -/
theorem claim_C5 (base : Option Val) (p : OperationPatch)
    (h : p.isInit = false) :
    (∃ r, applyPatch base .delete = .ok r ∧ isAbsentBase r = true) ∧
    (isAbsentBase base = true → applyPatch base p = .ok base) := by
  constructor
  · cases base with
    | none => exact ⟨none, rfl, rfl⟩
    | some b => cases b <;> exact ⟨_, rfl, rfl⟩
  · intro hb
    cases base with
    | none => cases p <;> simp_all [applyPatch, OperationPatch.isInit]
    | some b =>
      cases b <;> simp_all [isAbsentBase] <;>
        cases p <;> simp_all [applyPatch, OperationPatch.isInit]

/-- Witness for C5 at the concrete patch `set "k" 1` over the absent base. -/
theorem claim_C5_witness :
    (OperationPatch.set (.str "k") (.num 1)).isInit = false ∧
    ((∃ r, applyPatch none .delete = .ok r ∧ isAbsentBase r = true) ∧
      (isAbsentBase (none : Option Val) = true →
        applyPatch none (.set (.str "k") (.num 1)) = .ok none)) :=
  ⟨rfl, claim_C5 none (.set (.str "k") (.num 1)) rfl⟩

/-- Claim C6: every list-targeted patch applied to a non-array base is
skipped — `listCheck` reports the logged error by returning `false` and the
base is returned unchanged, with no thrown error. -/
theorem claim_C6 (b : Val) (p : OperationPatch)
    (hb : listCheck b = false) (hp : p.isListPatch = true) :
    applyPatch (some b) p = .ok (some b) ∧ listCheck b = false := by
  refine ⟨?_, hb⟩
  cases p <;> cases b <;>
    simp_all [applyPatch, applyPatchSome, listCheck, OperationPatch.isListPatch]

/-- Witness for C6: a `list-push` against an object base. -/
theorem claim_C6_witness :
    listCheck (.obj none .nil) = false ∧
    (OperationPatch.listPush (.num 1)).isListPatch = true ∧
    (applyPatch (some (.obj none .nil)) (.listPush (.num 1)) =
        .ok (some (.obj none .nil)) ∧
      listCheck (.obj none .nil) = false) :=
  ⟨rfl, rfl, claim_C6 (.obj none .nil) (.listPush (.num 1)) rfl rfl⟩

/-- Claim C10: on an array base, a `list-insert` whose `value` is a present
falsy scalar (`0`, `false`, the empty string, or `null`) and whose `values`
field is absent throws the fatal malformed-list-insert error: the truthiness
test `!patch.value` cannot tell a falsy value from an absent one. -/
theorem claim_C10 (oid : Option String) (l : Items) (i : Int) (v : Val)
    (h : v = .num 0 ∨ v = .bool false ∨ v = .str "" ∨ v = .null) :
    applyPatch (some (.arr oid l)) (.listInsert i v none) =
      .error "Cannot apply list insert patch; expected value or values" := by
  rcases h with h | h | h | h <;> subst h <;>
    simp [applyPatch, applyPatchSome, jsTruthy]

/-- Witness for C10 at `value = 0` over an empty array. -/
theorem claim_C10_witness :
    ((Val.num 0) = Val.num 0 ∨ (Val.num 0) = .bool false ∨
      (Val.num 0) = .str "" ∨ (Val.num 0) = .null) ∧
    applyPatch (some (.arr none .nil)) (.listInsert 0 (.num 0) none) =
      .error "Cannot apply list insert patch; expected value or values" :=
  ⟨Or.inl rfl, claim_C10 none .nil 0 (.num 0) (Or.inl rfl)⟩

/-! ## Claim C1 about `applyOperations`

The source passes the original `base` into every `applyPatch` call instead
of the folded result `cur`.  For most patch kinds the two coincide because
`applyPatch` mutates `base` in place, but a `delete` followed by any
in-place patch diverges: the fold stays absent, while the source applies the
later patch to the still-live original object and returns it. -/

/-- Claim C1 is violated by the source: applying `[delete, set k 1]` to an
empty object yields `{k: 1}` under `applyOperations` while the left fold of
`applyPatch` required by the claim yields absent. -/
theorem claim_C1_code_eval :
    applyOperations (some (.obj none .nil))
        [⟨"x", "1", .delete⟩, ⟨"x", "2", .set (.str "k") (.num 1)⟩] =
      .ok (some (.obj none (.cons "k" (.num 1) .nil))) ∧
    applyOperationsFold (some (.obj none .nil))
        [⟨"x", "1", .delete⟩, ⟨"x", "2", .set (.str "k") (.num 1)⟩] =
      .ok none :=
  ⟨rfl, rfl⟩

/-! ## Claim C2 about `Metadata.updateSchema`

The source's conflict check fires only when `overrideConflict` EQUALS the
stored version — the inverse of the claimed (and self-documented) behavior:
same-version drift without an override is accepted silently, and supplying
the override raises the error. -/

/-- Claim C2 is violated by the source: with stored schema `{v:1, A}`,
updating to `{v:1, B}` without an override succeeds (silent drift), while
passing `overrideConflict = 1` throws the schema-mismatch error. -/
theorem claim_C2_code_eval :
    updateSchema (some ⟨1, "A"⟩) ⟨1, "B"⟩ none = .ok ⟨1, "B"⟩ ∧
    updateSchema (some ⟨1, "A"⟩) ⟨1, "B"⟩ (some 1) =
      .error "Schema has changed without a version change" := by
  constructor
  · simp [updateSchema]
  · simp [updateSchema]

/-! ## Claim C3 about `list-move-by-ref`

The source locates the element with `base.indexOf(patch.value)`, which
compares by object identity, not by ref id.  A patch value deserialized from
storage or the wire is a fresh object, so `indexOf` returns `-1`,
`splice(-1, 1)` removes the LAST element, and that element — not the one the
ref names — is inserted at the target index. -/

/-- Claim C3 is violated by the source: moving the ref with id `a` to index
0 in `[ref a, ref b]` (patch ref a fresh object, identity token 2) removes
and reinserts `ref b`, producing `[ref b, ref a]` instead of leaving the
list `[ref a, ref b]` unchanged. -/
theorem claim_C3_code_eval :
    applyPatch (some (.arr none (Items.ofList [.ref 0 "a", .ref 1 "b"])))
        (.listMoveByRef (.ref 2 "a") 0) =
      .ok (some (.arr none (Items.ofList [.ref 1 "b", .ref 0 "a"]))) ∧
    applyPatch (some (.arr none (Items.ofList [.ref 0 "a", .ref 1 "b"])))
        (.listMoveByRef (.ref 2 "a") 0) ≠
      .ok (some (.arr none (Items.ofList [.ref 0 "a", .ref 1 "b"]))) := by
  constructor
  · rfl
  · decide

/-! ## Claim C9 about `list-remove`

Claim-side (spec-worded) definitions, followed by a characterization of the
source's removal loop.  The loop's element matcher for a ref value reads
`item.id`, which throws a `TypeError` on a `null` or `undefined` element, so
the claim as stated fails on such bases; everywhere else the loop removes
all / the first / the last occurrence as claimed. -/

/-- A nullish value: `null` or `undefined`. -/
def isNullish : Val → Bool
  | .null => true
  | .undef => true
  | _ => false

/-- A shallow property value (spec section 3): a scalar, nullish value, or
ref — never an inline object or array. -/
def isPropValue : Val → Bool
  | .obj _ _ => false
  | .arr _ _ => false
  | _ => true

/-- The matching relation the spec words state for `list-remove`: an
ObjectRef value matches elements by id, any other value by strict
equality. -/
def claimMatches (v item : Val) : Bool :=
  match v with
  | .ref _ id =>
    match item with
    | .ref _ i => i == id
    | _ => false
  | _ => jsStrictEq item v

/-- Remove the first element satisfying `p`, if any. -/
def removeFirst (p : Val → Bool) : List Val → List Val
  | [] => []
  | x :: xs => if p x then xs else x :: removeFirst p xs

/-- Remove the last element satisfying `p`, if any. -/
def removeLast (p : Val → Bool) (l : List Val) : List Val :=
  (removeFirst p l.reverse).reverse

/-- An element over which the `list-remove` matcher is total: a shallow
property value that is not nullish when the patch value is a ref. -/
def elemOk (v x : Val) : Bool :=
  isPropValue x && (!(isObjectRef v) || !(isNullish x))

/-- Pure mirror of `findIndexE` for a total predicate. -/
def findIdxIntP (p : Val → Bool) : List Val → Int
  | [] => -1
  | x :: xs =>
    if p x then 0
    else
      let i := findIdxIntP p xs
      if i = -1 then -1 else i + 1

theorem except_bind_ok {ε α β : Type} (a : α) (f : α → Except ε β) :
    (Except.ok a : Except ε α) >>= f = f a := rfl

theorem except_bind_error {ε α β : Type} (e : ε) (f : α → Except ε β) :
    (Except.error e : Except ε α) >>= f = Except.error e := rfl

theorem itemMatcher_ok (v x : Val) (h : elemOk v x = true) :
    itemMatcher v x = .ok (claimMatches v x) := by
  cases v <;> cases x <;>
    simp_all [elemOk, isPropValue, isNullish, isObjectRef, itemMatcher,
      refIdMatch, claimMatches, jsStrictEq]

theorem findIndexE_ok (v : Val) (l : List Val)
    (h : ∀ x ∈ l, elemOk v x = true) :
    findIndexE (itemMatcher v) l = .ok (findIdxIntP (claimMatches v) l) := by
  induction l with
  | nil => rfl
  | cons x xs ih =>
    have hx := itemMatcher_ok v x (h x (by simp))
    have ihh := ih (fun y hy => h y (by simp [hy]))
    by_cases hm : claimMatches v x = true
    · simp [findIndexE, hx, hm, findIdxIntP, except_bind_ok]
    · simp only [Bool.not_eq_true] at hm
      simp [findIndexE, hx, hm, findIdxIntP, ihh, except_bind_ok]

theorem findIdxIntP_nonneg (p : Val → Bool) (l : List Val) :
    findIdxIntP p l = -1 ∨ 0 ≤ findIdxIntP p l := by
  induction l with
  | nil => simp [findIdxIntP]
  | cons x xs ih =>
    by_cases hm : p x = true
    · simp [findIdxIntP, hm]
    · simp only [Bool.not_eq_true] at hm
      rcases ih with h | h <;> (simp [findIdxIntP, hm, h]; try omega)

theorem findIdxIntP_neg_iff (p : Val → Bool) (l : List Val) :
    findIdxIntP p l = -1 ↔ ∀ x ∈ l, p x = false := by
  induction l with
  | nil => simp [findIdxIntP]
  | cons x xs ih =>
    by_cases hm : p x = true
    · simp [findIdxIntP, hm]
    · simp only [Bool.not_eq_true] at hm
      constructor
      · intro heq
        have hxs : findIdxIntP p xs = -1 := by
          rcases findIdxIntP_nonneg p xs with h | h
          · exact h
          · simp only [findIdxIntP, hm, Bool.false_eq_true, if_false] at heq
            split at heq <;> omega
        intro y hy
        rcases List.mem_cons.mp hy with h | h
        · subst h; exact hm
        · exact (ih.mp hxs) y h
      · intro hall
        have hxs : findIdxIntP p xs = -1 :=
          ih.mpr (fun y hy => hall y (by simp [hy]))
        simp [findIdxIntP, hm, hxs]

/-- A `splice(i, 1)` at a valid index drops exactly the element at `i`. -/
theorem jsSplice_nat_erase (l : List Val) (i : Nat) (h : i < l.length) :
    (jsSplice l (i : Int) 1 []).2 = l.take i ++ l.drop (i + 1) := by
  simp only [jsSplice]
  have hs : (if (i : Int) < 0 then max ((l.length : Int) + i) 0
      else min (i : Int) (l.length : Int)).toNat = i := by
    rw [if_neg (by omega)]
    omega
  rw [hs]
  have hd : (min (max (1 : Int) 0) ((l.length : Int) - (i : Int))).toNat = 1 := by
    omega
  rw [hd]
  rw [List.drop_drop]
  simp

theorem findIdxIntP_found (p : Val → Bool) (l : List Val) (i : Nat)
    (h : findIdxIntP p l = (i : Int)) :
    i < l.length ∧ removeFirst p l = l.take i ++ l.drop (i + 1) := by
  induction l generalizing i with
  | nil => simp [findIdxIntP] at h
  | cons x xs ih =>
    by_cases hm : p x = true
    · simp only [findIdxIntP, hm, if_true] at h
      have hi : i = 0 := by omega
      subst hi
      exact ⟨by simp, by simp [removeFirst, hm]⟩
    · simp only [Bool.not_eq_true] at hm
      simp only [findIdxIntP, hm, Bool.false_eq_true, if_false] at h
      rcases findIdxIntP_nonneg p xs with h0 | h0
      · rw [h0] at h
        simp at h
      · have hi : 0 < i := by
          rw [if_neg (by omega)] at h
          omega
        have hxs : findIdxIntP p xs = ((i - 1 : Nat) : Int) := by
          rw [if_neg (by omega)] at h
          omega
        obtain ⟨hlt, herase⟩ := ih (i - 1) hxs
        refine ⟨by simp; omega, ?_⟩
        cases i with
        | zero => omega
        | succ j =>
          simp only [Nat.add_sub_cancel] at herase
          simp [removeFirst, hm, herase, List.take_succ_cons, List.drop_succ_cons]

theorem removeFirst_of_no_match (p : Val → Bool) (l : List Val)
    (h : ∀ x ∈ l, p x = false) : removeFirst p l = l := by
  induction l with
  | nil => rfl
  | cons x xs ih =>
    simp [removeFirst, h x (by simp)]
    exact ih (fun y hy => h y (by simp [hy]))

theorem removeFirst_length (p : Val → Bool) (l : List Val) (x : Val)
    (hx : x ∈ l) (hp : p x = true) :
    (removeFirst p l).length + 1 = l.length := by
  induction l with
  | nil => simp at hx
  | cons y ys ih =>
    by_cases hy : p y = true
    · simp [removeFirst, hy]
    · simp only [Bool.not_eq_true] at hy
      have hxy : x ∈ ys := by
        rcases List.mem_cons.mp hx with h | h
        · subst h; rw [hy] at hp; exact absurd hp (by simp)
        · exact h
      simp [removeFirst, hy, ih hxy]

theorem removeFirst_sublist (p : Val → Bool) (l : List Val) :
    (removeFirst p l).Sublist l := by
  induction l with
  | nil => simp [removeFirst]
  | cons x xs ih =>
    by_cases hx : p x = true
    · simp [removeFirst, hx]
    · simp only [Bool.not_eq_true] at hx
      simp [removeFirst, hx]
      exact ih

theorem filter_removeFirst (p : Val → Bool) (l : List Val) :
    (removeFirst p l).filter (fun x => !p x) = l.filter (fun x => !p x) := by
  induction l with
  | nil => rfl
  | cons x xs ih =>
    by_cases hx : p x = true
    · simp [removeFirst, hx, List.filter_cons]
    · simp only [Bool.not_eq_true] at hx
      simp [removeFirst, hx, List.filter_cons, ih]

theorem findIdxIntP_found_mem (p : Val → Bool) (l : List Val) (i : Nat)
    (h : findIdxIntP p l = (i : Int)) : ∃ x ∈ l, p x = true := by
  by_contra hno
  push_neg at hno
  have : findIdxIntP p l = -1 :=
    (findIdxIntP_neg_iff p l).mpr (fun x hx => by
      have := hno x hx
      simp_all)
  rw [this] at h
  omega

theorem findLastIndexEGo_ok (v : Val) (m : List Val)
    (h : ∀ x ∈ m, elemOk v x = true) :
    findLastIndexEGo (itemMatcher v) m m.length =
      .ok (if findIdxIntP (claimMatches v) m = -1 then -1
        else (m.length : Int) - 1 - findIdxIntP (claimMatches v) m) := by
  induction m with
  | nil => simp [findLastIndexEGo, findIdxIntP]
  | cons x xs ih =>
    have hx := itemMatcher_ok v x (h x (by simp))
    have ihh := ih (fun y hy => h y (by simp [hy]))
    by_cases hm : claimMatches v x = true
    · simp [findLastIndexEGo, hx, hm, findIdxIntP, except_bind_ok]
    · simp only [Bool.not_eq_true] at hm
      have hstep : findLastIndexEGo (itemMatcher v) (x :: xs) (xs.length + 1) =
          findLastIndexEGo (itemMatcher v) xs xs.length := by
        simp [findLastIndexEGo, hx, hm, except_bind_ok]
      simp only [List.length_cons, hstep, ihh]
      rcases findIdxIntP_nonneg (claimMatches v) xs with h0 | h0
      · simp [findIdxIntP, hm, h0]
      · have hne : ¬ findIdxIntP (claimMatches v) xs = -1 := by omega
        have : findIdxIntP (claimMatches v) (x :: xs) =
            findIdxIntP (claimMatches v) xs + 1 := by
          simp [findIdxIntP, hm]
          omega
        rw [if_neg hne, this, if_neg (by omega)]
        congr 1
        push_cast
        ring

theorem findLastIndexE_ok (v : Val) (l : List Val)
    (h : ∀ x ∈ l, elemOk v x = true) :
    findLastIndexE (itemMatcher v) l =
      .ok (if findIdxIntP (claimMatches v) l.reverse = -1 then -1
        else (l.length : Int) - 1 - findIdxIntP (claimMatches v) l.reverse) := by
  have := findLastIndexEGo_ok v l.reverse (fun x hx => h x (List.mem_reverse.mp hx))
  simpa [findLastIndexE] using this

theorem listRemoveOnce_first (v : Val) (only : Option RemoveOnly)
    (l : List Val) (hall : ∀ x ∈ l, elemOk v x = true)
    (honly : only ≠ some .last) :
    listRemoveOnce v only l =
      .ok (findIdxIntP (claimMatches v) l, removeFirst (claimMatches v) l) := by
  have hfind : findIndexE (itemMatcher v) l =
      .ok (findIdxIntP (claimMatches v) l) := findIndexE_ok v l hall
  have hmatch : (match only with
      | some .last => findLastIndexE (itemMatcher v) l
      | _ => findIndexE (itemMatcher v) l) = findIndexE (itemMatcher v) l := by
    cases only with
    | none => rfl
    | some o => cases o with
      | first => rfl
      | last => exact absurd rfl honly
  rcases findIdxIntP_nonneg (claimMatches v) l with h0 | h0
  · have hrf : removeFirst (claimMatches v) l = l :=
      removeFirst_of_no_match _ _ ((findIdxIntP_neg_iff _ _).mp h0)
    simp [listRemoveOnce, hmatch, hfind, h0, hrf, except_bind_ok]
  · have hi : findIdxIntP (claimMatches v) l =
        ((findIdxIntP (claimMatches v) l).toNat : Int) := by omega
    obtain ⟨hlt, herase⟩ := findIdxIntP_found (claimMatches v) l _ hi
    have hsp : (jsSplice l (findIdxIntP (claimMatches v) l) 1 []).2 =
        removeFirst (claimMatches v) l := by
      rw [hi, jsSplice_nat_erase l _ hlt, herase]
    simp [listRemoveOnce, hmatch, hfind, except_bind_ok, hsp]
    omega

theorem removeLast_take_drop (p : Val → Bool) (l : List Val) (j : Nat)
    (h : findIdxIntP p l.reverse = (j : Int)) :
    j < l.length ∧
      removeLast p l = l.take (l.length - 1 - j) ++ l.drop (l.length - j) := by
  obtain ⟨hlt, herase⟩ := findIdxIntP_found p l.reverse j h
  rw [List.length_reverse] at hlt
  refine ⟨hlt, ?_⟩
  rw [removeLast, herase]
  rw [List.reverse_append, List.take_reverse, List.drop_reverse]
  simp only [List.reverse_reverse, List.length_reverse]
  congr 2
  all_goals omega

theorem listRemoveOnce_last (v : Val) (l : List Val)
    (hall : ∀ x ∈ l, elemOk v x = true) :
    listRemoveOnce v (some .last) l =
      .ok (if findIdxIntP (claimMatches v) l.reverse = -1 then (-1, l)
        else ((l.length : Int) - 1 - findIdxIntP (claimMatches v) l.reverse,
          removeLast (claimMatches v) l)) := by
  have hfind := findLastIndexE_ok v l hall
  rcases findIdxIntP_nonneg (claimMatches v) l.reverse with h0 | h0
  · simp [listRemoveOnce, hfind, h0, except_bind_ok]
  · have hj : findIdxIntP (claimMatches v) l.reverse =
        ((findIdxIntP (claimMatches v) l.reverse).toNat : Int) := by omega
    obtain ⟨hlt, htd⟩ := removeLast_take_drop (claimMatches v) l _ hj
    have hne : ¬ findIdxIntP (claimMatches v) l.reverse = -1 := by omega
    have hidx : (l.length : Int) - 1 - findIdxIntP (claimMatches v) l.reverse =
        ((l.length - 1 - (findIdxIntP (claimMatches v) l.reverse).toNat : Nat) : Int) := by
      omega
    have hlen : 0 < l.length := by omega
    have hsp : (jsSplice l ((l.length : Int) - 1 -
        findIdxIntP (claimMatches v) l.reverse) 1 []).2 =
        removeLast (claimMatches v) l := by
      rw [hidx, jsSplice_nat_erase l _ (by omega), htd]
      congr 2
      omega
    simp only [listRemoveOnce, hfind, except_bind_ok, if_neg hne]
    rw [if_neg (by omega)]
    rw [hsp]

theorem listRemoveRun_first (v : Val) (l : List Val) (fuel : Nat)
    (hall : ∀ x ∈ l, elemOk v x = true) :
    listRemoveRun v (some .first) l (fuel + 1) =
      .ok (removeFirst (claimMatches v) l) := by
  have honce := listRemoveOnce_first v (some .first) l hall (by simp)
  simp [listRemoveRun, honce, except_bind_ok]

theorem listRemoveRun_last (v : Val) (l : List Val) (fuel : Nat)
    (hall : ∀ x ∈ l, elemOk v x = true) :
    listRemoveRun v (some .last) l (fuel + 1) =
      .ok (removeLast (claimMatches v) l) := by
  have honce := listRemoveOnce_last v l hall
  rcases findIdxIntP_nonneg (claimMatches v) l.reverse with h0 | h0
  · rw [h0] at honce
    simp only [if_pos rfl] at honce
    have hrl : removeLast (claimMatches v) l = l := by
      rw [removeLast,
        removeFirst_of_no_match _ _ ((findIdxIntP_neg_iff _ _).mp h0),
        List.reverse_reverse]
    simp [listRemoveRun, honce, except_bind_ok, hrl]
  · have hne : ¬ findIdxIntP (claimMatches v) l.reverse = -1 := by omega
    rw [if_neg hne] at honce
    simp [listRemoveRun, honce, except_bind_ok]

theorem listRemoveRun_all (v : Val) (fuel : Nat) (l : List Val)
    (hfuel : l.length < fuel) (hall : ∀ x ∈ l, elemOk v x = true) :
    listRemoveRun v none l fuel =
      .ok (l.filter (fun x => !claimMatches v x)) := by
  induction fuel generalizing l with
  | zero => omega
  | succ f ih =>
    have honce := listRemoveOnce_first v none l hall (by simp)
    rcases findIdxIntP_nonneg (claimMatches v) l with h0 | h0
    · have hnm := (findIdxIntP_neg_iff _ _).mp h0
      have hrf : removeFirst (claimMatches v) l = l :=
        removeFirst_of_no_match _ _ hnm
      have hfl : l.filter (fun x => !claimMatches v x) = l :=
        List.filter_eq_self.mpr (fun x hx => by simp [hnm x hx])
      simp [listRemoveRun, honce, except_bind_ok, h0, hrf, hfl]
    · obtain ⟨x, hxmem, hxp⟩ := findIdxIntP_found_mem (claimMatches v) l
        (findIdxIntP (claimMatches v) l).toNat (by omega)
      have hlen := removeFirst_length (claimMatches v) l x hxmem hxp
      have hall' : ∀ y ∈ removeFirst (claimMatches v) l, elemOk v y = true :=
        fun y hy => hall y ((removeFirst_sublist (claimMatches v) l).mem hy)
      have hrec := ih (removeFirst (claimMatches v) l) (by omega) hall'
      have hne : ¬ findIdxIntP (claimMatches v) l = -1 := by omega
      simp [listRemoveRun, honce, except_bind_ok, hne, hrec,
        filter_removeFirst]

/-- Claim C9 as stated is violated by the source at a base containing a
`null` element when the patch value is a ref: searching reads `item.id` and
throws a `TypeError` instead of returning the unchanged base. -/
theorem claim_C9_counterexample :
    applyPatch (some (.arr none (Items.ofList [.null])))
        (.listRemove (.ref 0 "a") none) ≠
      .ok (some (.arr none (Items.ofList [.null]))) ∧
    applyPatch (some (.arr none (Items.ofList [.null])))
        (.listRemove (.ref 0 "a") none) =
      .error "TypeError: cannot read id of null" := by
  constructor
  · decide
  · rfl

/-- Claim C9, amended: over a base of shallow property values that, when
the patch value is an ObjectRef, contains no null or undefined element,
`list-remove` removes every matching occurrence when `only` is absent, the
first when `only = first`, the last when `only = last`; a ref value matches
by id, any other value by strict equality, and a base with no match is
returned unchanged. -/
theorem claim_C9 (oid : Option String) (l : Items) (v : Val)
    (hall : ∀ x ∈ l.toList, elemOk v x = true) :
    applyPatch (some (.arr oid l)) (.listRemove v none) =
      .ok (some (.arr oid
        (Items.ofList (l.toList.filter (fun x => !claimMatches v x))))) ∧
    applyPatch (some (.arr oid l)) (.listRemove v (some .first)) =
      .ok (some (.arr oid
        (Items.ofList (removeFirst (claimMatches v) l.toList)))) ∧
    applyPatch (some (.arr oid l)) (.listRemove v (some .last)) =
      .ok (some (.arr oid
        (Items.ofList (removeLast (claimMatches v) l.toList)))) ∧
    ((∀ x ∈ l.toList, claimMatches v x = false) →
      applyPatch (some (.arr oid l)) (.listRemove v none) =
        .ok (some (.arr oid l))) := by
  have hallrun := listRemoveRun_all v (l.toList.length + 1) l.toList
    (by omega) hall
  have hfirst := listRemoveRun_first v l.toList l.toList.length hall
  have hlast := listRemoveRun_last v l.toList l.toList.length hall
  refine ⟨?_, ?_, ?_, ?_⟩
  · simp [applyPatch, applyPatchSome, hallrun, except_bind_ok]
  · simp [applyPatch, applyPatchSome, hfirst, except_bind_ok]
  · simp [applyPatch, applyPatchSome, hlast, except_bind_ok]
  · intro hnm
    have hfl : l.toList.filter (fun x => !claimMatches v x) = l.toList :=
      List.filter_eq_self.mpr (fun x hx => by simp [hnm x hx])
    simp [applyPatch, applyPatchSome, hallrun, except_bind_ok, hfl,
      Items.ofList_toList]

/-- Witness for C9 over the concrete base `[1, 2, 1]` with value `1`. -/
theorem claim_C9_witness :
    (∀ x ∈ (Items.ofList [Val.num 1, .num 2, .num 1]).toList,
      elemOk (.num 1) x = true) ∧
    applyPatch (some (.arr none (Items.ofList [Val.num 1, .num 2, .num 1])))
        (.listRemove (.num 1) none) =
      .ok (some (.arr none
        (Items.ofList ((Items.ofList [Val.num 1, .num 2, .num 1]).toList.filter
          (fun x => !claimMatches (.num 1) x))))) :=
  ⟨by decide, (claim_C9 none (Items.ofList [Val.num 1, .num 2, .num 1])
    (.num 1) (by decide)).1⟩

/-! ## Claim C4 about `Metadata.rebase` -/

/-- A value of the data model's `NormalizedObject` shape is truthy. -/
theorem isObject_jsTruthy (v : Val) (h : isObject v = true) :
    jsTruthy v = true := by
  cases v <;> simp_all [isObject, jsTruthy]

/-- The conditional fold inside `Metadata.rebase` equals the plain
`applyPatch` fold over exactly the eligible operations. -/
theorem rebaseFold_eq_fold_filter (b? : Option DocumentBaseline)
    (cur : Option Val) (ops : List Operation) :
    rebaseFold b? cur ops =
      applyOperationsFold cur (ops.filter (eligible b?)) := by
  induction ops generalizing cur with
  | nil => rfl
  | cons op rest ih =>
    by_cases h : eligible b? op = true
    · cases happ : applyPatch cur op.data with
      | error e =>
        simp [rebaseFold, applyOperationsFold, List.filter_cons, h,
          happ, except_bind_ok, except_bind_error]
      | ok c =>
        have := ih c
        simp only [rebaseFold, applyOperationsFold] at this
        simp [rebaseFold, applyOperationsFold, List.filter_cons, h,
          happ, except_bind_ok, this]
    · simp only [Bool.not_eq_true] at h
      have := ih cur
      simp only [rebaseFold, applyOperationsFold] at this
      simp [rebaseFold, applyOperationsFold, List.filter_cons, h,
        except_bind_ok, this]

/-- Claim C4: after a successful `rebase(oid, T)` on a timestamp-ordered
operation list, (1) every operation with timestamp up to `T` has been
deleted — precisely the strictly newer rows remain; (2) the eligible scanned
operations (those strictly newer than the prior baseline, or all scanned
ones if no baseline existed) are still in timestamp order, and the folded
snapshot is exactly the `applyPatch` fold over precisely those, in that
order; (3) the baselines store holds `{oid, snapshot, timestamp := T}` when
the folded snapshot is a present (normalized-object) value and holds no
baseline for that OID otherwise. -/
theorem claim_C4 (oid : String) (b? : Option DocumentBaseline)
    (ops : List Operation) (T : String)
    (res : Option DocumentBaseline × List Operation)
    (hsorted : ops.Pairwise (fun a b => jsStrLe a.timestamp b.timestamp = true))
    (h : rebase oid b? ops T = .ok res) :
    res.2 = ops.filter (fun op => !(jsStrLe op.timestamp T)) ∧
    ((scanUpTo ops T).filter (eligible b?)).Pairwise
      (fun a b => jsStrLe a.timestamp b.timestamp = true) ∧
    rebaseFold b? (baselineStart b?) (scanUpTo ops T) =
      applyOperationsFold (baselineStart b?)
        ((scanUpTo ops T).filter (eligible b?)) ∧
    (∀ c, applyOperationsFold (baselineStart b?)
        ((scanUpTo ops T).filter (eligible b?)) = .ok c →
      (∀ v, c = some v → isObject v = true) →
      res.1 = c.map (fun v => ⟨oid, some (assignOid v oid), T⟩)) := by
  cases hf : rebaseFold b? (baselineStart b?) (scanUpTo ops T) with
  | error e =>
    simp only [rebase, hf] at h
    simp at h
  | ok current =>
    simp only [rebase, hf] at h
    have hres := (Except.ok.injEq _ _).mp h
    refine ⟨?_, ?_,
      hf.symm.trans (rebaseFold_eq_fold_filter b? _ _), ?_⟩
    · rw [← hres]
    · exact (hsorted.filter _).filter _
    · intro c hc hcobj
      have hcc : current = c := by
        have h2 := (rebaseFold_eq_fold_filter b? (baselineStart b?)
          (scanUpTo ops T)).symm.trans hf
        rw [hc] at h2
        exact ((Except.ok.injEq _ _).mp h2).symm
      subst hcc
      rw [← hres]
      cases current with
      | none => rfl
      | some v =>
        simp [isObject_jsTruthy v (hcobj v rfl)]

/-- Witness for C4: three operations at timestamps 1, 2, 3 with no prior
baseline, rebased up to watermark 3 — the operation list empties. -/
theorem claim_C4_witness :
    ([(⟨"todo/a:x", "1",
        .init (.obj none (.cons "t" (.str "hi") .nil))⟩ : Operation),
      ⟨"todo/a:x", "2", .set (.str "done") (.bool true)⟩,
      ⟨"todo/a:x", "3", .set (.str "t") (.str "bye")⟩].Pairwise
        (fun a b => jsStrLe a.timestamp b.timestamp = true)) ∧
    ([] : List Operation) =
      [(⟨"todo/a:x", "1",
          .init (.obj none (.cons "t" (.str "hi") .nil))⟩ : Operation),
        ⟨"todo/a:x", "2", .set (.str "done") (.bool true)⟩,
        ⟨"todo/a:x", "3", .set (.str "t") (.str "bye")⟩].filter
          (fun op => !(jsStrLe op.timestamp "3")) :=
  ⟨by decide,
    (claim_C4 "todo/a:x" none
      [⟨"todo/a:x", "1", .init (.obj none (.cons "t" (.str "hi") .nil))⟩,
        ⟨"todo/a:x", "2", .set (.str "done") (.bool true)⟩,
        ⟨"todo/a:x", "3", .set (.str "t") (.str "bye")⟩] "3"
      (some ⟨"todo/a:x",
        some (.obj (some "todo/a:x")
          (.cons "t" (.str "bye") (.cons "done" (.bool true) .nil))), "3"⟩, [])
      (by decide) rfl).1⟩

/-! ## The diff engine
(`diffToPatches` and `initialToPatches` from `operation.ts`)

The engine walks raw value trees.  Timestamps and generated sub-ids are
drawn from caller-supplied closures (`getNow`, `createSubId`); the model
threads one shared call counter and parametrizes over what each draw
returns, so every emitted timestamp and generated id is `now k` or
`subId k` for the k-th draw. -/

/-- The options record of `diffToPatches`. -/
structure DiffOptions where
  mergeUnknownObjects : Bool := false
  defaultUndefined : Bool := false
deriving DecidableEq, Repr

/-- The generator environment of a diff run: `now k` is the timestamp of
the k-th generator draw and `subId k` the generated sub-id of the k-th
draw, over one shared call counter. -/
structure DiffCtx where
  now : Nat → String
  subId : Nat → String

/-- `getOidRoot`-style truncation (oids.ts, not in src/).  Modelled from the
spec: the root is obtained by stripping any `#` path lexically. -/
def oidRoot (o : String) : String :=
  ⟨o.data.takeWhile (fun c => !(c == '#'))⟩

/-- `createSubOid` (oids.ts, not in src/).  Modelled from the spec: a
sub-OID appends a `#` path segment to the root of the parent OID; the
segment is produced by the caller-supplied sub-id generator. -/
def createSubOid (parent : String) (sub : String) : String :=
  oidRoot parent ++ "#" ++ sub

/-- `ensureOid` (oids.ts, not in src/).  Modelled from the spec: return the
value's OID, or generate a fresh sub-OID of the parent, stamp it on the
value, and advance the generator counter. -/
def ensureOid (ctx : DiffCtx) (value : Val) (parentOid : String) (n : Nat) :
    Val × String × Nat :=
  match maybeGetOid value with
  | some o => (value, o, n)
  | none =>
    let o := createSubOid parentOid (ctx.subId n)
    (assignOid value o, o, n + 1)

/-- The OID-resolution step of `diffItems` in `diffToPatches`: under
`mergeUnknownObjects`, a new value with no OID adopts the old value's OID;
otherwise `ensureOid`. -/
def resolveValueOid (ctx : DiffCtx) (opts : DiffOptions) (parentOid : String)
    (value oldValue : Val) (n : Nat) : Val × String × Nat :=
  if opts.mergeUnknownObjects then
    match maybeGetOid value, maybeGetOid oldValue with
    | none, some o => (assignOid value o, o, n)
    | _, _ => ensureOid ctx value parentOid n
  else ensureOid ctx value parentOid n

/-! ### OID-blind size measure (for termination of the tree walks, which may
re-stamp OIDs without shrinking `sizeOf`) -/

mutual
/-- Structural size of a value, ignoring the OID stamps. -/
def Val.osize : Val → Nat
  | .obj _ f => 1 + f.osize
  | .arr _ l => 1 + l.osize
  | _ => 1

/-- Structural size of object fields, ignoring OID stamps. -/
def Fields.osize : Fields → Nat
  | .nil => 0
  | .cons _ v rest => 1 + v.osize + rest.osize

/-- Structural size of array items, ignoring OID stamps. -/
def Items.osize : Items → Nat
  | .nil => 0
  | .cons v rest => 1 + v.osize + rest.osize
end

/-- Summed OID-blind size of a list of values. -/
def osizeL : List Val → Nat
  | [] => 0
  | v :: rest => 1 + v.osize + osizeL rest

theorem osize_pos : ∀ (v : Val), 0 < v.osize
  | .str _ => by simp [Val.osize]
  | .num _ => by simp [Val.osize]
  | .bool _ => by simp [Val.osize]
  | .null => by simp [Val.osize]
  | .undef => by simp [Val.osize]
  | .ref _ _ => by simp [Val.osize]
  | .obj _ _ => by simp [Val.osize]
  | .arr _ _ => by simp [Val.osize]

theorem osize_assignOid (v : Val) (o : String) :
    (assignOid v o).osize = v.osize := by
  cases v <;> simp [assignOid, Val.osize]

theorem osizeL_toList : ∀ (l : Items), osizeL l.toList = l.osize
  | .nil => rfl
  | .cons v rest => by
    simp [Items.toList, osizeL, Items.osize, osizeL_toList rest]

theorem osize_ensureOid (ctx : DiffCtx) (value : Val) (parentOid : String)
    (n : Nat) : (ensureOid ctx value parentOid n).1.osize = value.osize := by
  cases h : maybeGetOid value <;>
    simp [ensureOid, h, osize_assignOid]

theorem osize_resolveValueOid (ctx : DiffCtx) (opts : DiffOptions)
    (parentOid : String) (value oldValue : Val) (n : Nat) :
    (resolveValueOid ctx opts parentOid value oldValue n).1.osize =
      value.osize := by
  by_cases hm : opts.mergeUnknownObjects = true
  · cases h1 : maybeGetOid value <;> cases h2 : maybeGetOid oldValue <;>
      simp [resolveValueOid, hm, h1, h2, osize_ensureOid, osize_assignOid,
        ensureOid]
  · simp only [Bool.not_eq_true] at hm
    simp [resolveValueOid, hm, osize_ensureOid]

/-! ### `assignOidsToAllSubObjects` and `normalize`
(oids.ts, not in src/; modelled from the spec, section 4.1) -/

mutual
/-- Modelled from the spec: walk the tree and stamp every nested object or
array that lacks an OID with a freshly generated sub-OID of its parent. -/
def assignOidsToAllSubObjects (ctx : DiffCtx) : Val → Nat → Val × Nat
  | .obj oid f, n =>
    let r := assignSubFields ctx (oid.getD "") f n
    (.obj oid r.1, r.2)
  | .arr oid l, n =>
    let r := assignSubItems ctx (oid.getD "") l n
    (.arr oid r.1, r.2)
  | v, n => (v, n)
termination_by v _ => 3 * v.osize
decreasing_by
  all_goals simp [Val.osize, Fields.osize, Items.osize]
  all_goals omega

/-- Field-wise walk of `assignOidsToAllSubObjects`. -/
def assignSubFields (ctx : DiffCtx) (parent : String) :
    Fields → Nat → Fields × Nat
  | .nil, n => (.nil, n)
  | .cons k v rest, n =>
    let rv := assignSubChild ctx parent v n
    let rr := assignSubFields ctx parent rest rv.2
    (.cons k rv.1 rr.1, rr.2)
termination_by f _ => 3 * f.osize + 2
decreasing_by
  all_goals simp [Val.osize, Fields.osize, Items.osize]
  all_goals omega

/-- Item-wise walk of `assignOidsToAllSubObjects`. -/
def assignSubItems (ctx : DiffCtx) (parent : String) :
    Items → Nat → Items × Nat
  | .nil, n => (.nil, n)
  | .cons v rest, n =>
    let rv := assignSubChild ctx parent v n
    let rr := assignSubItems ctx parent rest rv.2
    (.cons rv.1 rr.1, rr.2)
termination_by l _ => 3 * l.osize + 2
decreasing_by
  all_goals simp [Val.osize, Fields.osize, Items.osize]
  all_goals omega

/-- Stamp one child (generating an OID if it lacks one) and recurse. -/
def assignSubChild (ctx : DiffCtx) (parent : String) :
    Val → Nat → Val × Nat
  | .obj none f, n =>
    assignOidsToAllSubObjects ctx
      (.obj (some (createSubOid parent (ctx.subId n))) f) (n + 1)
  | .obj (some o) f, n => assignOidsToAllSubObjects ctx (.obj (some o) f) n
  | .arr none l, n =>
    assignOidsToAllSubObjects ctx
      (.arr (some (createSubOid parent (ctx.subId n))) l) (n + 1)
  | .arr (some o) l, n => assignOidsToAllSubObjects ctx (.arr (some o) l) n
  | v, n => (v, n)
termination_by v _ => 3 * v.osize + 1
decreasing_by
  all_goals simp [Val.osize, Fields.osize, Items.osize]
end

mutual
/-- Modelled from the spec: `normalize` produces the flat map from each
sub-object's OID to its shallow copy with ObjectRef substitutions, root
entry first, children in document order.  Every nested object is assumed to
carry an OID (as `initialToPatches` guarantees); a missing OID is read as
the empty string. -/
def normalize : Val → List (String × Val)
  | .obj oid f => (oid.getD "", .obj oid (shallowFields f)) :: normFields f
  | .arr oid l => (oid.getD "", .arr oid (shallowItems l)) :: normItems l
  | _ => []

/-- Shallow copy of object fields with ObjectRef substitutions. -/
def shallowFields : Fields → Fields
  | .nil => .nil
  | .cons k v rest => .cons k (shallowChild v) (shallowFields rest)

/-- Shallow copy of array items with ObjectRef substitutions. -/
def shallowItems : Items → Items
  | .nil => .nil
  | .cons v rest => .cons (shallowChild v) (shallowItems rest)

/-- Replace one nested object or array by a ref to its OID. -/
def shallowChild : Val → Val
  | .obj oid _ => createRef (oid.getD "")
  | .arr oid _ => createRef (oid.getD "")
  | v => v

/-- The normalized entries contributed by an object's children. -/
def normFields : Fields → List (String × Val)
  | .nil => []
  | .cons _ v rest => normalize v ++ normFields rest

/-- The normalized entries contributed by an array's children. -/
def normItems : Items → List (String × Val)
  | .nil => []
  | .cons v rest => normalize v ++ normItems rest
end

/-- `removeOid` (oids.ts, not in src/).  Modelled from the spec: strip the
hidden OID key from a (shallow) value. -/
def removeOid : Val → Val
  | .obj _ f => .obj none f
  | .arr _ l => .arr none l
  | v => v

/-- Emit one `initialize` per normalized entry, in map order, each drawing
one timestamp. -/
def emitInits (ctx : DiffCtx) : List (String × Val) → Nat →
    List Operation × Nat
  | [], n => ([], n)
  | (oid, v) :: rest, n =>
    let r := emitInits ctx rest (n + 1)
    (⟨oid, ctx.now n, .init (removeOid v)⟩ :: r.1, r.2)

/-- `initialToPatches` from `operation.ts`: stamp the root OID, assign OIDs
throughout the sub-tree, normalize, and emit one `initialize` per entry. -/
def initialToPatches (ctx : DiffCtx) (initial : Val) (rootOid : String)
    (n : Nat) : List Operation × Nat :=
  let r := assignOidsToAllSubObjects ctx (assignOid initial rootOid) n
  emitInits ctx (normalize r.1) r.2

/-- The tail deletions of the array branch of `diffToPatches`: one `delete`
per dropped element that carried an OID, in order. -/
def emitDropped (ctx : DiffCtx) : List Val → Nat → List Operation × Nat
  | [], n => ([], n)
  | v :: rest, n =>
    match maybeGetOid v with
    | some o =>
      let r := emitDropped ctx rest (n + 1)
      (⟨o, ctx.now n, .delete⟩ :: r.1, r.2)
    | none => emitDropped ctx rest n

/-- The shrink handling of the array branch: when `from` is longer, emit the
`delete`s for the dropped elements and then one `list-delete` at index
`len(to)` with count `len(from) - len(to)`. -/
def diffArrayTail (ctx : DiffCtx) (oid : String) (flen tlen : Nat)
    (dropped : List Val) (n : Nat) : List Operation × Nat :=
  if tlen < flen then
    let r := emitDropped ctx dropped n
    (r.1 ++ [⟨oid, ctx.now r.2,
      .listDelete (tlen : Int) ((flen : Int) - (tlen : Int))⟩], r.2 + 1)
  else ([], n)

/-- The `remove` emissions for keys present only in `from`. -/
def emitRemoves (ctx : DiffCtx) (oid : String) :
    List String → Nat → List Operation × Nat
  | [], n => ([], n)
  | k :: rest, n =>
    let r := emitRemoves ctx oid rest (n + 1)
    (⟨oid, ctx.now n, .remove (.str k)⟩ :: r.1, r.2)

mutual
/-- `diffToPatches` from `operation.ts`.  The `from` value must carry an OID
(`getOid` throws otherwise); both arrays diffs element-wise and then shrinks
the tail; an array against anything else is a fatal shape conflict; both
plain objects diff key-wise and emit `remove`s for keys dropped from `from`
unless `defaultUndefined`; any other combination emits nothing. -/
def diffToPatches (ctx : DiffCtx) (opts : DiffOptions) (fromV toV : Val)
    (keyPath : List PName) (n : Nat) : Except String (List Operation × Nat) :=
  match maybeGetOid fromV with
  | none => .error "Cannot diff a value without an OID"
  | some oid =>
    match fromV, toV with
    | .arr _ fl, .arr _ tl => do
      let (ops1, n1) ←
        diffArrayItems ctx opts oid fl.toList tl.toList 0 keyPath n
      let r := diffArrayTail ctx oid fl.toList.length tl.toList.length
        (fl.toList.drop tl.toList.length) n1
      .ok (ops1 ++ r.1, r.2)
    | .arr _ _, _ => .error "Cannot diff an array with an object"
    | _, .arr _ _ => .error "Cannot diff an array with an object"
    | .obj _ ff, .obj _ tf => do
      let (ops1, n1) ← diffObjectItems ctx opts oid ff tf keyPath n
      let r :=
        if opts.defaultUndefined then ([], n1)
        else emitRemoves ctx oid
          (ff.keys.filter (fun k => (tf.lookup k).isNone)) n1
      .ok (ops1 ++ r.1, r.2)
    | _, _ => .ok ([], n)
termination_by 3 * toV.osize
decreasing_by
  all_goals simp [Val.osize, osizeL_toList]
  all_goals omega

/-- The per-index loop of the array branch: `diffItems(i, to[i], from[i])`
for `i` in `[0, len(to))`. -/
def diffArrayItems (ctx : DiffCtx) (opts : DiffOptions) (oid : String)
    (fl : List Val) (tl : List Val) (i : Nat) (keyPath : List PName)
    (n : Nat) : Except String (List Operation × Nat) :=
  match tl with
  | [] => .ok ([], n)
  | v :: rest => do
    let oldValue := (fl.get? i).getD .undef
    let (ops1, n1) ←
      diffItemsFn ctx opts oid (.num (i : Int)) v oldValue keyPath n
    let (ops2, n2) ← diffArrayItems ctx opts oid fl rest (i + 1) keyPath n1
    .ok (ops1 ++ ops2, n2)
termination_by 3 * osizeL tl + 2
decreasing_by
  all_goals simp [Val.osize, osizeL]
  all_goals omega

/-- The per-key loop of the object branch: skip keys whose value is
`undefined` under `defaultUndefined`, else `diffItems(key, to[key],
from[key])`. -/
def diffObjectItems (ctx : DiffCtx) (opts : DiffOptions) (oid : String)
    (ff : Fields) (tf : Fields) (keyPath : List PName) (n : Nat) :
    Except String (List Operation × Nat) :=
  match tf with
  | .nil => .ok ([], n)
  | .cons k v rest =>
    if v = .undef ∧ opts.defaultUndefined = true then
      diffObjectItems ctx opts oid ff rest keyPath n
    else do
      let oldValue := (ff.lookup k).getD .undef
      let (ops1, n1) ← diffItemsFn ctx opts oid (.str k) v oldValue keyPath n
      let (ops2, n2) ← diffObjectItems ctx opts oid ff rest keyPath n1
      .ok (ops1 ++ ops2, n2)
termination_by 3 * tf.osize + 2
decreasing_by
  all_goals simp [Val.osize, Fields.osize]
  all_goals omega

/-- `diffItems` from `diffToPatches`: a non-object new value emits a `set`
when strictly unequal; an object new value resolves its OID and either
replaces the slot (initialize sub-tree, set ref on parent, delete old
sub-object if it carried an OID) or, with identity preserved, recurses. -/
def diffItemsFn (ctx : DiffCtx) (opts : DiffOptions) (oid : String)
    (key : PName) (value oldValue : Val) (keyPath : List PName) (n : Nat) :
    Except String (List Operation × Nat) :=
  if isObject value = false then
    if jsStrictEq value oldValue then .ok ([], n)
    else .ok ([⟨oid, ctx.now n, .set key value⟩], n + 1)
  else
    let oldValueOid := maybeGetOid oldValue
    let r := resolveValueOid ctx opts oid value oldValue n
    if oldValue = .undef ∨ ¬ (oldValueOid = some r.2.1) then
      let ri := initialToPatches ctx r.1 r.2.1 r.2.2
      let setOp : Operation := ⟨oid, ctx.now ri.2, .set key (createRef r.2.1)⟩
      let rd : List Operation × Nat :=
        match oldValueOid with
        | some o => ([⟨o, ctx.now (ri.2 + 1), .delete⟩], ri.2 + 2)
        | none => ([], ri.2 + 1)
      .ok (ri.1 ++ [setOp] ++ rd.1, rd.2)
    else
      diffToPatches ctx opts oldValue r.1 (keyPath ++ [key]) r.2.2
termination_by 3 * value.osize + 1
decreasing_by
  simp [osize_resolveValueOid]
end

/-! ## Claims C7 and C8 about the diff engine -/

theorem emitDropped_shape (ctx : DiffCtx) :
    ∀ (l : List Val) (n : Nat),
      (emitDropped ctx l n).1.map (fun op => (op.oid, op.data)) =
        l.filterMap
          (fun v => (maybeGetOid v).map (fun o => (o, OperationPatch.delete)))
  | [], _ => rfl
  | v :: rest, n => by
    cases h : maybeGetOid v <;>
      simp [emitDropped, h, emitDropped_shape ctx rest]

/-- Claim C7: diffing a longer array `from` against a shorter `to` emits,
after the element-wise diffs of the common prefix, one `delete` per dropped
element that carries an OID (in order) and then exactly one `list-delete`
at index `len(to)` with count `len(from) - len(to)`. -/
theorem claim_C7 (ctx : DiffCtx) (opts : DiffOptions) (oid : String)
    (toid : Option String) (fl tl : Items) (kp : List PName) (n : Nat)
    (pre : List Operation) (n1 : Nat)
    (hlen : tl.toList.length < fl.toList.length)
    (hpre : diffArrayItems ctx opts oid fl.toList tl.toList 0 kp n =
      .ok (pre, n1)) :
    diffToPatches ctx opts (.arr (some oid) fl) (.arr toid tl) kp n =
      .ok (pre ++ (emitDropped ctx (fl.toList.drop tl.toList.length) n1).1 ++
        [⟨oid,
          ctx.now (emitDropped ctx (fl.toList.drop tl.toList.length) n1).2,
          .listDelete (tl.toList.length : Int)
            ((fl.toList.length : Int) - (tl.toList.length : Int))⟩],
        (emitDropped ctx (fl.toList.drop tl.toList.length) n1).2 + 1) ∧
    (emitDropped ctx (fl.toList.drop tl.toList.length) n1).1.map
        (fun op => (op.oid, op.data)) =
      (fl.toList.drop tl.toList.length).filterMap
        (fun v => (maybeGetOid v).map (fun o => (o, OperationPatch.delete))) := by
  refine ⟨?_, emitDropped_shape ctx _ _⟩
  rw [diffToPatches]
  simp only [maybeGetOid]
  rw [hpre]
  simp [except_bind_ok, diffArrayTail, hlen]

/-- The generator environment used by the concrete diff witnesses. -/
def testCtx : DiffCtx :=
  ⟨fun k => "t" ++ toString k, fun k => "s" ++ toString k⟩

/-- Witness for C7: diffing `[1,2,3]` against `[1,2]` emits exactly one
operation, a `list-delete` at index 2 with count 1. -/
theorem claim_C7_witness :
    (Items.ofList [Val.num 1, .num 2]).toList.length <
      (Items.ofList [Val.num 1, .num 2, .num 3]).toList.length ∧
    diffToPatches testCtx {}
        (.arr (some "todo/a:x") (Items.ofList [.num 1, .num 2, .num 3]))
        (.arr (some "todo/a:x") (Items.ofList [.num 1, .num 2])) [] 0 =
      .ok ([⟨"todo/a:x", "t0", .listDelete 2 1⟩], 1) := by
  constructor
  · decide
  · have hpre : diffArrayItems testCtx {} "todo/a:x"
        (Items.ofList [Val.num 1, .num 2, .num 3]).toList
        (Items.ofList [Val.num 1, .num 2]).toList 0 [] 0 =
        .ok ([], 0) := by
      simp [diffArrayItems, diffItemsFn, Items.ofList, Items.toList,
        isObject, jsStrictEq, except_bind_ok]
    have h := (claim_C7 testCtx {} "todo/a:x" (some "todo/a:x")
      (Items.ofList [.num 1, .num 2, .num 3])
      (Items.ofList [.num 1, .num 2]) [] 0 [] 0 (by decide) hpre).1
    rw [h]
    simp only [emitDropped, Items.ofList, Items.toList, maybeGetOid, testCtx]
    rfl

/-- Claim C8: when a diffed slot's new value is an object or array whose
resolved OID differs from the old slot's OID (or the old slot was absent),
`diffToPatches` emits, in order: the `initialize` operations for the new
sub-tree via `initialToPatches`, then one `set` on the parent whose value is
an ObjectRef to the new OID, then — only if the old value carried an OID —
one `delete` targeting that old OID.  Stated over a one-key object diff,
which runs `diffItems` on exactly that slot. -/
theorem claim_C8 (ctx : DiffCtx) (opts : DiffOptions) (poid : String)
    (toid : Option String) (k : String) (oldV newV : Val) (kp : List PName)
    (n : Nat) (v' : Val) (vOid : String) (n0 : Nat)
    (hobj : isObject newV = true)
    (hres : resolveValueOid ctx opts poid newV oldV n = (v', vOid, n0))
    (hcond : oldV = .undef ∨ ¬ (maybeGetOid oldV = some vOid)) :
    diffToPatches ctx opts (.obj (some poid) (.cons k oldV .nil))
        (.obj toid (.cons k newV .nil)) kp n =
      .ok ((initialToPatches ctx v' vOid n0).1 ++
        [⟨poid, ctx.now (initialToPatches ctx v' vOid n0).2,
          .set (.str k) (createRef vOid)⟩] ++
        (match maybeGetOid oldV with
          | some o =>
            [⟨o, ctx.now ((initialToPatches ctx v' vOid n0).2 + 1), .delete⟩]
          | none => []),
        match maybeGetOid oldV with
        | some _ => (initialToPatches ctx v' vOid n0).2 + 2
        | none => (initialToPatches ctx v' vOid n0).2 + 1) := by
  have hnundef : ¬ (newV = Val.undef ∧ opts.defaultUndefined = true) := by
    rintro ⟨h1, h2⟩
    subst h1
    simp [isObject] at hobj
  have hitems : diffItemsFn ctx opts poid (.str k) newV oldV kp n =
      .ok ((initialToPatches ctx v' vOid n0).1 ++
        [⟨poid, ctx.now (initialToPatches ctx v' vOid n0).2,
          .set (.str k) (createRef vOid)⟩] ++
        (match maybeGetOid oldV with
          | some o =>
            [⟨o, ctx.now ((initialToPatches ctx v' vOid n0).2 + 1), .delete⟩]
          | none => []),
        match maybeGetOid oldV with
        | some _ => (initialToPatches ctx v' vOid n0).2 + 2
        | none => (initialToPatches ctx v' vOid n0).2 + 1) := by
    rw [diffItemsFn]
    rw [if_neg (by simp [hobj])]
    rw [hres]
    rw [if_pos hcond]
    cases h : maybeGetOid oldV <;> simp [h]
  have hloop : diffObjectItems ctx opts poid (.cons k oldV .nil)
      (.cons k newV .nil) kp n =
      diffItemsFn ctx opts poid (.str k) newV oldV kp n := by
    rw [diffObjectItems]
    rw [if_neg hnundef]
    simp only [Fields.lookup, if_pos rfl, Option.getD_some]
    cases h : diffItemsFn ctx opts poid (.str k) newV oldV kp n with
    | error e => simp [h, except_bind_error]
    | ok r =>
      cases r with
      | mk ops1 n1 =>
        simp [h, except_bind_ok, diffObjectItems, except_bind_error]
  rw [diffToPatches]
  simp only [maybeGetOid]
  rw [hloop, hitems]
  have hrem : (Fields.cons k oldV .nil).keys.filter
      (fun k2 => ((Fields.cons k newV .nil).lookup k2).isNone) = [] := by
    simp [Fields.keys, Fields.lookup, List.filter]
  cases hdu : opts.defaultUndefined <;>
    simp [except_bind_ok, hrem, emitRemoves, maybeGetOid]

/-- Witness for C8: the spec's nested-replace-by-reassignment scenario —
diffing `{sub: {v: 1}}` (sub OID `todo/a:x#sub`) against `{sub: {v: 2}}`
with no OID and `mergeUnknownObjects` off yields `initialize` of the fresh
sub OID, `set` of the parent slot to the new ref, `delete` of the old sub
OID. -/
theorem claim_C8_witness :
    isObject (Val.obj none (.cons "v" (.num 2) .nil)) = true ∧
    resolveValueOid testCtx {} "todo/a:x"
        (.obj none (.cons "v" (.num 2) .nil))
        (.obj (some "todo/a:x#sub") (.cons "v" (.num 1) .nil)) 0 =
      (.obj (some "todo/a:x#s0") (.cons "v" (.num 2) .nil),
        "todo/a:x#s0", 1) ∧
    diffToPatches testCtx {}
        (.obj (some "todo/a:x")
          (.cons "sub"
            (.obj (some "todo/a:x#sub") (.cons "v" (.num 1) .nil)) .nil))
        (.obj none
          (.cons "sub" (.obj none (.cons "v" (.num 2) .nil)) .nil)) [] 0 =
      .ok ([⟨"todo/a:x#s0", "t1",
          .init (.obj none (.cons "v" (.num 2) .nil))⟩,
        ⟨"todo/a:x", "t2", .set (.str "sub") (createRef "todo/a:x#s0")⟩,
        ⟨"todo/a:x#sub", "t3", .delete⟩], 4) := by
  refine ⟨rfl, by decide, ?_⟩
  have h := claim_C8 testCtx {} "todo/a:x" none "sub"
    (.obj (some "todo/a:x#sub") (.cons "v" (.num 1) .nil))
    (.obj none (.cons "v" (.num 2) .nil)) [] 0
    (.obj (some "todo/a:x#s0") (.cons "v" (.num 2) .nil))
    "todo/a:x#s0" 1 rfl (by decide) (by decide)
  rw [h]
  have hinit : initialToPatches testCtx
      (.obj (some "todo/a:x#s0") (.cons "v" (.num 2) .nil))
      "todo/a:x#s0" 1 =
      ([⟨"todo/a:x#s0", "t1",
        .init (.obj none (.cons "v" (.num 2) .nil))⟩], 2) := by
    simp only [initialToPatches, assignOid, assignOidsToAllSubObjects,
      assignSubFields, assignSubChild, normalize, shallowFields,
      shallowChild, normFields, emitInits, removeOid]
    rfl
  rw [hinit]
  simp only [maybeGetOid]
  rfl

end LoFi
